import Mathlib

/-!
Verification of the EmbeddingFlow pipeline (src/app.js).

The JavaScript source is shallowly embedded as follows.

* A JavaScript string is modelled as a `List Char`; `charCodeAt i` is
  modelled by `Char.toNat` of the i-th list element (the two agree on all
  code points of the Basic Multilingual Plane, which covers every string
  occurring in the claims and in the spec's examples).
* `String.prototype.toLowerCase` is modelled by core's `Char.toLower`
  applied pointwise, i.e. the simple ASCII case mapping `A–Z ↦ a–z` and
  the identity elsewhere.  This agrees with JavaScript on all strings
  whose characters have no Unicode case mapping outside ASCII, which
  again covers the claims.
* The regex class `\w` is `[A-Za-z0-9_]` and `\s` is the ECMAScript
  whitespace set (WhiteSpace ∪ LineTerminator); both are embedded as
  decidable character predicates below.
* JavaScript numbers in `tokenToId` stay below 2^53 at every step, so the
  arithmetic is exact and `(h * 31 + code) >>> 0` is embedded as
  `(h * 31 + code) % 2 ^ 32` on `Nat`.
* The floating-point arithmetic of `embedToken` and of the heatmap colour
  computation is modelled over `ℝ`; `Math.round` is Mathlib's `round`
  (both send `x` to `⌊x + 1/2⌋`), and `Math.sin` is `Real.sin`.
-/

namespace EmbeddingFlow

/-- Membership in the regex class `\w` of src/app.js line 22, i.e.
`[A-Za-z0-9_]`: ASCII letters, digits, underscore. -/
def isWordChar (c : Char) : Bool :=
  decide ((97 ≤ c.toNat ∧ c.toNat ≤ 122) ∨ (65 ≤ c.toNat ∧ c.toNat ≤ 90) ∨
    (48 ≤ c.toNat ∧ c.toNat ≤ 57) ∨ c.toNat = 95)

/-- Membership in the regex class `\s` (ECMAScript WhiteSpace and
LineTerminator code points), which is also the character set removed by
`String.prototype.trim`. -/
def isSpaceChar (c : Char) : Bool :=
  decide (c.toNat = 32 ∨ (9 ≤ c.toNat ∧ c.toNat ≤ 13) ∨ c.toNat = 160 ∨
    c.toNat = 5760 ∨ (8192 ≤ c.toNat ∧ c.toNat ≤ 8202) ∨ c.toNat = 8232 ∨
    c.toNat = 8233 ∨ c.toNat = 8239 ∨ c.toNat = 8287 ∨ c.toNat = 12288 ∨
    c.toNat = 65279)

/-- Embedding of `String.prototype.trim`: drop leading and trailing
whitespace characters. -/
def trim (s : List Char) : List Char :=
  ((s.dropWhile isSpaceChar).reverse.dropWhile isSpaceChar).reverse

/-- Embedding of one character's image under
`.replace(/[^\w\s]/g, ' $& ')` (src/app.js line 22): a character that is
neither a word character nor whitespace is surrounded by spaces, every
other character is kept as is. -/
def expandChar (c : Char) : List Char :=
  if ¬ isWordChar c ∧ ¬ isSpaceChar c then [' ', c, ' '] else [c]

/-- Embedding of `.split(/\s+/).filter(Boolean)` (src/app.js lines 23–24):
the list of maximal nonempty runs of non-whitespace characters.  `acc`
holds the characters of the current run in reverse order. -/
def splitWsAux : List Char → List Char → List (List Char)
  | [], acc => if acc.isEmpty then [] else [acc.reverse]
  | c :: cs, acc =>
    if isSpaceChar c then
      if acc.isEmpty then splitWsAux cs [] else acc.reverse :: splitWsAux cs []
    else splitWsAux cs (c :: acc)

/-- Splitting on whitespace runs, dropping empty pieces. -/
def splitWs (s : List Char) : List (List Char) :=
  splitWsAux s []

/-- Embedding of `tokenize` (src/app.js lines 17–25): guard for empty or
whitespace-only input, then trim, lowercase, surround punctuation with
spaces, split on whitespace and drop empty pieces. -/
def tokenize (s : List Char) : List (List Char) :=
  if s.isEmpty || (trim s).isEmpty then []
  else splitWs (((trim s).map Char.toLower).flatMap expandChar)

/-- Embedding of the loop of `tokenToId` (src/app.js lines 29–32):
`h = (h * 31 + token.charCodeAt(i)) >>> 0` for each character in order.
Every intermediate JavaScript value is below 2^53, so the arithmetic is
exact and `>>> 0` is reduction modulo 2^32. -/
def hashStep : Nat → List Char → Nat
  | h, [] => h
  | h, c :: cs => hashStep ((h * 31 + c.toNat) % 2 ^ 32) cs

/-- Embedding of `tokenToId` (src/app.js lines 28–34). -/
def tokenToId (token : List Char) : Nat :=
  hashStep 0 token % 1024

/-- Embedding of `embedToken` (src/app.js lines 38–45): for each dimension
index `d` below `dim`, the value `Math.round(x * 100) / 100` where
`x = Math.sin(id * 0.1 + d * 0.5) * 0.5 + 0.5`, modelled over `ℝ`. -/
noncomputable def embedToken (id : Nat) (dim : Nat) : List ℝ :=
  (List.range dim).map fun d : Nat =>
    ((round ((Real.sin ((id : ℝ) * 0.1 + (d : ℝ) * 0.5) * 0.5 + 0.5) * 100) : ℤ) : ℝ) / 100

/-- Embedding of `Math.min(...values)` for a nonempty argument list; the
empty case is unreachable in `renderMatrix` (its argument is the flattened
nonempty matrix) and is given the arbitrary value 0. -/
noncomputable def listMin : List ℝ → ℝ
  | [] => 0
  | x :: xs => xs.foldl min x

/-- Embedding of `Math.max(...values)` for a nonempty argument list; the
empty case is unreachable in `renderMatrix` and is given the arbitrary
value 0. -/
noncomputable def listMax : List ℝ → ℝ
  | [] => 0
  | x :: xs => xs.foldl max x

/-- Embedding of `const range = max - min || 1` (src/app.js line 80): the
value `max - min`, replaced by 1 when it is zero. -/
noncomputable def rangeOf (mn mx : ℝ) : ℝ :=
  if mx - mn = 0 then 1 else mx - mn

/-- Embedding of `heatmapColor` (src/app.js lines 82–88) as the RGB triple
`(Math.round(125 + (1-t)*130), Math.round(211 + (1-t)*44),
Math.round(252))` where `t = (value - min) / range`. -/
noncomputable def heatmapColor (mn range v : ℝ) : ℤ × ℤ × ℤ :=
  let t := (v - mn) / range
  (round ((125 : ℝ) + (1 - t) * 130), round ((211 : ℝ) + (1 - t) * 44),
    round ((252 : ℝ)))

/-- Text content of a rendered cell.  A label or header cell holds a
string; a value cell's textContent is `value.toFixed(2)` (src/app.js line
112), which the embedding models by carrying the numeric value itself. -/
inductive CellText where
  | str : String → CellText
  | num : ℝ → CellText

/-- A DOM cell produced by `createCell`, together with the inline styles
`renderMatrix` may set afterwards: the background colour of value cells
and their foreground colour choice. -/
structure Cell where
  text : CellText
  cls : String
  bg : Option (ℤ × ℤ × ℤ)
  fg : Option String

/-- Embedding of `createCell` (src/app.js lines 120–125). -/
def createCell (text : CellText) (cls : String) : Cell :=
  Cell.mk text ("matrix-cell " ++ cls) none none

/-- Setting of `cell.style.background` and `cell.style.color` on a value
cell (src/app.js lines 113–114). -/
def styleCell (cell : Cell) (bg : ℤ × ℤ × ℤ) (fg : String) : Cell :=
  Cell.mk cell.text cell.cls (some bg) (some fg)

/-- Embedding of the row-label expression of src/app.js line 106:
`tokens[r].length > 10 ? tokens[r].slice(0, 8) + '…' : tokens[r]`. -/
def labelText (token : List Char) : List Char :=
  if token.length > 10 then token.take 8 ++ ['…'] else token

/-- Cells appended for one matrix row (src/app.js lines 104–117): the
token label followed by one styled value cell per column. -/
noncomputable def rowCells (token : List Char) (row : List ℝ)
    (mn range : ℝ) (cols : Nat) : List Cell :=
  createCell (CellText.str (String.mk (labelText token))) "token-label" ::
    ((List.range cols).map fun c =>
      let value := row.getD c 0
      styleCell (createCell (CellText.num value) "value")
        (heatmapColor mn range value)
        (if value > 0.5 then "var(--bg)" else "var(--text)"))

/-- Row blocks of the grid, one block per matrix row, in order. -/
noncomputable def gridRows (tokens : List (List Char))
    (matrix : List (List ℝ)) (mn range : ℝ) (cols : Nat) :
    List (List Cell) :=
  (List.range matrix.length).map fun r =>
    rowCells (tokens.getD r []) (matrix.getD r []) mn range cols

/-- Embedding of `renderMatrix` (src/app.js lines 72–118): the corner
cell, the dimension-header cells `d0 … d{cols-1}`, then per row a label
cell and the styled value cells, in DOM insertion order. -/
noncomputable def renderMatrix (tokens : List (List Char))
    (matrix : List (List ℝ)) : List Cell :=
  let cols := (matrix.getD 0 []).length
  let allValues := matrix.flatten
  let mn := listMin allValues
  let mx := listMax allValues
  let range := rangeOf mn mx
  createCell (CellText.str "") "corner dim-label token-label" ::
    ((List.range cols).map fun c =>
      createCell (CellText.str ("d" ++ toString c)) "dim-label") ++
    (gridRows tokens matrix mn range cols).flatten

/-- Tokens computed by a pipeline run (src/app.js lines 48–49):
`tokenize(textInput.value.trim())`. -/
def pipeTokens (input : List Char) : List (List Char) :=
  tokenize (trim input)

/-- Token ids computed by a pipeline run (src/app.js line 50). -/
def pipeIds (input : List Char) : List Nat :=
  (pipeTokens input).map tokenToId

/-- Matrix computed by a pipeline run (src/app.js line 52):
`tokens.map((_, i) => embedToken(ids[i], dim))` with `dim = 8`. -/
noncomputable def pipeMatrix (input : List Char) : List (List ℝ) :=
  (List.range (pipeTokens input).length).map fun i =>
    embedToken ((pipeIds input).getD i 0) 8

/-- Embedding of `tokens.length ? tokens.join(', ') : '—'`
(src/app.js line 55). -/
def joinTokens (tokens : List (List Char)) : String :=
  if tokens.length = 0 then "—"
  else String.intercalate ", " (tokens.map fun t => String.mk t)

/-- Embedding of `ids.length ? ids.join(', ') : '—'`
(src/app.js line 56). -/
def joinIds (ids : List Nat) : String :=
  if ids.length = 0 then "—"
  else String.intercalate ", " (ids.map fun n => toString n)

/-- Embedding of the matrix summary of src/app.js lines 57–59. -/
def metaSummary (rows dim : Nat) : String :=
  if rows = 0 then "—"
  else toString rows ++ " × " ++ toString dim ++ " (tokens × dimensions)"

/-- State of the four DOM output regions written by a run: the three text
summaries, the `has-matrix` marker class on the container, and the grid's
child cells. -/
structure DomState where
  tokensText : String
  idsText : String
  metaText : String
  hasMatrix : Bool
  grid : List Cell

/-- Embedding of `runPipeline` (src/app.js lines 47–70) as a transformer
of the DOM output state: all three summaries are always overwritten; on an
empty matrix the `has-matrix` marker is removed and the grid cleared,
otherwise the marker is set and the grid rebuilt by `renderMatrix`. -/
noncomputable def runPipeline (input : List Char) (st : DomState) : DomState :=
  let tokens := pipeTokens input
  let ids := pipeIds input
  let dim := 8
  let matrix := pipeMatrix input
  let st1 := DomState.mk (joinTokens tokens) (joinIds ids)
    (metaSummary matrix.length dim) st.hasMatrix st.grid
  if matrix.length = 0 then
    DomState.mk st1.tokensText st1.idsText st1.metaText false []
  else
    DomState.mk st1.tokensText st1.idsText st1.metaText true
      (renderMatrix tokens matrix)

/-! Helper lemmas shared by the claim theorems. -/

theorem length_embedToken (id dim : Nat) : (embedToken id dim).length = dim := by
  simp [embedToken]

theorem length_pipeMatrix (input : List Char) :
    (pipeMatrix input).length = (pipeTokens input).length := by
  simp [pipeMatrix]

/-- C1: tokenToId iterates the accumulator update
`h := (h * 31 + charCode) mod 2^32` over the characters in order starting
from 0, reduces the final accumulator modulo 1024, hence always returns a
value in [0, 1024), and in particular maps "a" to 97. -/
theorem tokenToId_spec :
    (∀ h c cs, hashStep h (c :: cs) = hashStep ((h * 31 + c.toNat) % 2 ^ 32) cs) ∧
    (∀ token, tokenToId token = hashStep 0 token % 1024 ∧ tokenToId token < 1024) ∧
    tokenToId ['a'] = 97 :=
  ⟨fun _ _ _ => rfl,
   fun token => ⟨rfl, Nat.mod_lt _ (by norm_num)⟩,
   by decide⟩

/-- C6: for every input, the pipeline matrix has exactly one row per
token, every row has exactly 8 columns, and the matrix is empty exactly
when there are no tokens. -/
theorem pipeline_matrix_invariant (input : List Char) :
    (pipeMatrix input).length = (pipeTokens input).length ∧
    (∀ row ∈ pipeMatrix input, row.length = 8) ∧
    (pipeMatrix input = [] ↔ pipeTokens input = []) := by
  refine ⟨length_pipeMatrix input, ?_, ?_⟩
  · intro row hrow
    simp only [pipeMatrix, List.mem_map] at hrow
    obtain ⟨i, _, rfl⟩ := hrow
    exact length_embedToken _ _
  · rw [← List.length_eq_zero, ← List.length_eq_zero, length_pipeMatrix]

/-- C7: a pipeline run is a pure function of the input text: the output
DOM state does not depend on the previous DOM state, so two runs on the
same input produce bit-identical token text, id text, summary, marker and
grid, and a second run is idempotent. -/
theorem runPipeline_pure (input : List Char) (st st' : DomState) :
    runPipeline input st = runPipeline input st' ∧
    runPipeline input (runPipeline input st) = runPipeline input st := by
  exact ⟨rfl, rfl⟩

theorem embedToken_getD (id dim d : Nat) (h : d < dim) :
    (embedToken id dim).getD d 0 =
      ((round ((Real.sin ((id : ℝ) * 0.1 + (d : ℝ) * 0.5) * 0.5 + 0.5) * 100) : ℤ) : ℝ) / 100 := by
  simp [embedToken, List.getD_eq_getElem?_getD, List.getElem?_map, List.getElem?_range, h]

theorem round_nonneg_of_nonneg {x : ℝ} (h : 0 ≤ x) : 0 ≤ round x := by
  rw [round_eq]
  exact Int.floor_nonneg.2 (by linarith)

theorem round_le_hundred {x : ℝ} (h : x ≤ 100) : round x ≤ 100 := by
  rw [round_eq]
  have h1 : (⌊x + 1 / 2⌋ : ℤ) ≤ ⌊(100 : ℝ) + 1 / 2⌋ := Int.floor_le_floor (by linarith)
  have h2 : (⌊(100 : ℝ) + 1 / 2⌋ : ℤ) = 100 := by
    rw [Int.floor_eq_iff]
    norm_num
  omega

/-- C4: embedToken id dim returns exactly dim values; the value at
dimension index d < dim is round((sin(id*0.1 + d*0.5) * 0.5 + 0.5) * 100)
/ 100 and lies in [0, 1]; in particular embedToken 0 1 = [0.5]. -/
theorem embedToken_values :
    (∀ id dim : Nat, (embedToken id dim).length = dim ∧
      ∀ d : Nat, d < dim →
        (embedToken id dim).getD d 0 =
          ((round ((Real.sin ((id : ℝ) * 0.1 + (d : ℝ) * 0.5) * 0.5 + 0.5) * 100) : ℤ) : ℝ) / 100 ∧
        0 ≤ (embedToken id dim).getD d 0 ∧ (embedToken id dim).getD d 0 ≤ 1) ∧
    embedToken 0 1 = [1 / 2] := by
  constructor
  · intro id dim
    refine ⟨length_embedToken id dim, fun d hd => ⟨embedToken_getD id dim d hd, ?_, ?_⟩⟩
    · rw [embedToken_getD id dim d hd]
      have h1 := Real.neg_one_le_sin ((id : ℝ) * 0.1 + (d : ℝ) * 0.5)
      have h2 : (0 : ℤ) ≤ round ((Real.sin ((id : ℝ) * 0.1 + (d : ℝ) * 0.5) * 0.5 + 0.5) * 100) :=
        round_nonneg_of_nonneg (by nlinarith)
      have h3 : (0 : ℝ) ≤ ((round ((Real.sin ((id : ℝ) * 0.1 + (d : ℝ) * 0.5) * 0.5 + 0.5) * 100) : ℤ) : ℝ) := by
        exact_mod_cast h2
      positivity
    · rw [embedToken_getD id dim d hd]
      have h1 := Real.sin_le_one ((id : ℝ) * 0.1 + (d : ℝ) * 0.5)
      have h2 : round ((Real.sin ((id : ℝ) * 0.1 + (d : ℝ) * 0.5) * 0.5 + 0.5) * 100) ≤ 100 :=
        round_le_hundred (by nlinarith)
      rw [div_le_one (by norm_num)]
      exact_mod_cast h2
  · have h1 : List.range 1 = [0] := rfl
    rw [embedToken, h1]
    norm_num [Real.sin_zero]

/-- C4 witness at id = 0, dim = 1, d = 0. -/
theorem embedToken_values_witness :
    (embedToken 0 1).getD 0 0 =
      ((round ((Real.sin (((0 : ℕ) : ℝ) * 0.1 + ((0 : ℕ) : ℝ) * 0.5) * 0.5 + 0.5) * 100) : ℤ) : ℝ) / 100 ∧
    0 ≤ (embedToken 0 1).getD 0 0 ∧ (embedToken 0 1).getD 0 0 ≤ 1 :=
  (embedToken_values.1 0 1).2 0 (by norm_num)

theorem runPipeline_metaText (input : List Char) (st : DomState) :
    (runPipeline input st).metaText = metaSummary (pipeMatrix input).length 8 := by
  simp only [runPipeline]
  split <;> rfl

/-- C2: on the input "Hi there!" the pipeline produces the tokens
["hi", "there", "!"] (punctuation isolated), the ids given by the hash
rule (257, 612, 33), a 3-row by 8-column matrix, and the summary text
"3 × 8 (tokens × dimensions)". -/
theorem pipeline_hi_there (st : DomState) :
    pipeTokens "Hi there!".toList = [['h', 'i'], ['t', 'h', 'e', 'r', 'e'], ['!']] ∧
    pipeIds "Hi there!".toList =
      [tokenToId ['h', 'i'], tokenToId ['t', 'h', 'e', 'r', 'e'], tokenToId ['!']] ∧
    pipeIds "Hi there!".toList = [257, 612, 33] ∧
    (pipeMatrix "Hi there!".toList).length = 3 ∧
    (∀ row ∈ pipeMatrix "Hi there!".toList, row.length = 8) ∧
    (runPipeline "Hi there!".toList st).metaText = "3 × 8 (tokens × dimensions)" := by
  have htok : pipeTokens "Hi there!".toList = [['h', 'i'], ['t', 'h', 'e', 'r', 'e'], ['!']] := by
    decide
  have hlen : (pipeMatrix "Hi there!".toList).length = 3 := by
    rw [length_pipeMatrix, htok]
    rfl
  refine ⟨htok, by decide, by decide, hlen, ?_, ?_⟩
  · intro row hrow
    simp only [pipeMatrix, List.mem_map] at hrow
    obtain ⟨i, _, rfl⟩ := hrow
    exact length_embedToken _ _
  · rw [runPipeline_metaText, hlen]
    decide

/-- C8: on empty or whitespace-only input a run produces empty token and
id lists, writes the placeholder "—" into all three summaries, removes the
has-matrix marker and clears the grid; the run is an ordinary total
computation, not an error path. -/
theorem pipeline_empty_input (input : List Char) (st : DomState)
    (h : trim input = []) :
    pipeTokens input = [] ∧ pipeIds input = [] ∧
    (runPipeline input st).tokensText = "—" ∧
    (runPipeline input st).idsText = "—" ∧
    (runPipeline input st).metaText = "—" ∧
    (runPipeline input st).hasMatrix = false ∧
    (runPipeline input st).grid = [] := by
  have htok : pipeTokens input = [] := by
    rw [pipeTokens, h]
    rfl
  have hids : pipeIds input = [] := by
    rw [pipeIds, htok]
    rfl
  have hmat : pipeMatrix input = [] := by
    rw [pipeMatrix, htok, hids]
    rfl
  refine ⟨htok, hids, ?_, ?_, ?_, ?_, ?_⟩ <;>
    simp [runPipeline, htok, hids, hmat, joinTokens, joinIds, metaSummary]

/-- C8 witness at the whitespace-only input "   " and an arbitrary
starting DOM state. -/
theorem pipeline_empty_input_witness :
    pipeTokens "   ".toList = [] ∧ pipeIds "   ".toList = [] ∧
    (runPipeline "   ".toList (DomState.mk "a" "b" "c" true [])).tokensText = "—" ∧
    (runPipeline "   ".toList (DomState.mk "a" "b" "c" true [])).idsText = "—" ∧
    (runPipeline "   ".toList (DomState.mk "a" "b" "c" true [])).metaText = "—" ∧
    (runPipeline "   ".toList (DomState.mk "a" "b" "c" true [])).hasMatrix = false ∧
    (runPipeline "   ".toList (DomState.mk "a" "b" "c" true [])).grid = [] :=
  pipeline_empty_input "   ".toList (DomState.mk "a" "b" "c" true []) (by decide)

theorem gridRows_getD (tokens : List (List Char)) (matrix : List (List ℝ))
    (mn range : ℝ) (cols r : Nat) (h : r < matrix.length) :
    (gridRows tokens matrix mn range cols).getD r [] =
      rowCells (tokens.getD r []) (matrix.getD r []) mn range cols := by
  simp [gridRows, List.getD_eq_getElem?_getD, List.getElem?_map, List.getElem?_range, h]

/-- C9: every rendered row r starts with a label cell whose text is the
token itself when the token has at most 10 characters, and the token's
first 8 characters followed by an ellipsis when the token is longer than
10 characters. -/
theorem row_label_truncation (tokens : List (List Char))
    (matrix : List (List ℝ)) (mn range : ℝ) (cols r : Nat)
    (h : r < matrix.length) :
    (∃ valueCells,
      (gridRows tokens matrix mn range cols).getD r [] =
        createCell (CellText.str (String.mk (labelText (tokens.getD r []))))
          "token-label" :: valueCells) ∧
    ((tokens.getD r []).length ≤ 10 → labelText (tokens.getD r []) = tokens.getD r []) ∧
    (10 < (tokens.getD r []).length →
      labelText (tokens.getD r []) = (tokens.getD r []).take 8 ++ ['…']) := by
  refine ⟨?_, fun hle => ?_, fun hgt => ?_⟩
  · rw [gridRows_getD tokens matrix mn range cols r h]
    simp only [rowCells]
    exact ⟨_, rfl⟩
  · rw [labelText, if_neg (by omega)]
  · rw [labelText, if_pos (by omega)]

/-- C9 witness at a single-token, single-value matrix and row 0. -/
theorem row_label_truncation_witness :
    (∃ valueCells,
      (gridRows [['a']] [[(0 : ℝ)]] 0 1 1).getD 0 [] =
        createCell (CellText.str (String.mk (labelText ([['a']].getD 0 []))))
          "token-label" :: valueCells) ∧
    (([['a']].getD 0 []).length ≤ 10 → labelText ([['a']].getD 0 []) = [['a']].getD 0 []) ∧
    (10 < ([['a']].getD 0 []).length →
      labelText ([['a']].getD 0 []) = ([['a']].getD 0 []).take 8 ++ ['…']) :=
  row_label_truncation [['a']] [[(0 : ℝ)]] 0 1 1 0 (by simp)

theorem toNat_ofNat_of_lt {n : Nat} (h : n < 55296) : (Char.ofNat n).toNat = n := by
  simp [Char.ofNat, Nat.isValidChar, h, Char.ofNatAux, Char.toNat, UInt32.toNat,
    BitVec.toNat_ofNatLt]

theorem toNat_toLower (c : Char) :
    (Char.toLower c).toNat =
      if 65 ≤ c.toNat ∧ c.toNat ≤ 90 then c.toNat + 32 else c.toNat := by
  unfold Char.toLower
  split
  · rename_i hc
    rw [if_pos ⟨hc.1, hc.2⟩]
    exact toNat_ofNat_of_lt (by omega)
  · rename_i hc
    rw [if_neg hc]

theorem isWordChar_toLower {c : Char} (h : isWordChar c = true) :
    isWordChar (Char.toLower c) = true := by
  simp only [isWordChar, decide_eq_true_eq] at h ⊢
  rw [toNat_toLower]
  split <;> omega

theorem not_space_of_word {c : Char} (h : isWordChar c = true) :
    isSpaceChar c = false := by
  simp only [isWordChar, decide_eq_true_eq] at h
  simp only [isSpaceChar, decide_eq_false_iff_not]
  omega

theorem dropWhile_of_none {p : Char → Bool} {l : List Char}
    (h : ∀ c ∈ l, p c = false) : l.dropWhile p = l := by
  cases l with
  | nil => rfl
  | cons a t => simp [List.dropWhile_cons, h a (by simp)]

theorem trim_eq_self {s : List Char} (h : ∀ c ∈ s, isSpaceChar c = false) :
    trim s = s := by
  unfold trim
  rw [dropWhile_of_none h,
    dropWhile_of_none (fun c hc => h c (List.mem_reverse.1 hc)),
    List.reverse_reverse]

theorem dropWhile_of_all {p : Char → Bool} {l : List Char}
    (h : ∀ c ∈ l, p c = true) : l.dropWhile p = [] := by
  induction l with
  | nil => rfl
  | cons a t ih =>
    simp [List.dropWhile_cons, h a (by simp), ih fun c hc => h c (by simp [hc])]

theorem trim_of_all_space {s : List Char} (h : ∀ c ∈ s, isSpaceChar c = true) :
    trim s = [] := by
  unfold trim
  rw [dropWhile_of_all h]
  rfl

theorem expandChar_word {c : Char} (h : isWordChar c = true) :
    expandChar c = [c] := by
  simp [expandChar, h]

theorem flatMap_expandChar_words {l : List Char}
    (h : ∀ c ∈ l, isWordChar c = true) : l.flatMap expandChar = l := by
  induction l with
  | nil => rfl
  | cons a t ih =>
    rw [List.flatMap_cons, expandChar_word (h a (by simp)),
      ih fun c hc => h c (by simp [hc])]
    rfl

theorem splitWsAux_of_no_space (l : List Char)
    (h : ∀ c ∈ l, isSpaceChar c = false) (acc : List Char) :
    splitWsAux l acc =
      if acc.reverse ++ l = [] then [] else [acc.reverse ++ l] := by
  induction l generalizing acc with
  | nil => cases acc <;> simp [splitWsAux]
  | cons c t ih =>
    have hc := h c (by simp)
    simp only [splitWsAux, hc, Bool.false_eq_true, if_false]
    rw [ih (fun x hx => h x (by simp [hx])) (c :: acc)]
    simp [List.append_assoc]

theorem splitWs_single {l : List Char} (hne : l ≠ [])
    (h : ∀ c ∈ l, isSpaceChar c = false) : splitWs l = [l] := by
  rw [splitWs, splitWsAux_of_no_space l h []]
  simp [hne]

/-- C5: tokenize maps a non-empty input made only of word characters (no
whitespace, no punctuation) to the one-element list holding the lowercased
input, and maps the empty input and whitespace-only inputs to the empty
list. -/
theorem tokenize_words :
    (∀ s : List Char, s ≠ [] → (∀ c ∈ s, isWordChar c = true) →
      tokenize s = [s.map Char.toLower]) ∧
    tokenize [] = [] ∧
    (∀ s : List Char, (∀ c ∈ s, isSpaceChar c = true) → tokenize s = []) := by
  refine ⟨?_, rfl, ?_⟩
  · intro s hne hw
    have hns : ∀ c ∈ s, isSpaceChar c = false := fun c hc => not_space_of_word (hw c hc)
    have htr : trim s = s := trim_eq_self hns
    simp only [tokenize, htr]
    rw [if_neg (by simp [List.isEmpty_iff, hne])]
    have hw2 : ∀ c ∈ s.map Char.toLower, isWordChar c = true := by
      intro c hc
      obtain ⟨a, ha, rfl⟩ := List.mem_map.1 hc
      exact isWordChar_toLower (hw a ha)
    rw [flatMap_expandChar_words hw2]
    exact splitWs_single (by simp [hne]) fun c hc => not_space_of_word (hw2 c hc)
  · intro s hs
    simp [tokenize, trim_of_all_space hs]

/-- C5 witness: the word input "Ab" and the whitespace-only input "  ". -/
theorem tokenize_words_witness :
    tokenize ['A', 'b'] = [['a', 'b']] ∧ tokenize [' ', ' '] = [] := by
  constructor
  · rw [tokenize_words.1 ['A', 'b'] (by decide) (by decide)]
    decide
  · exact tokenize_words.2.2 [' ', ' '] (by decide)

theorem bool_eq_false {b : Bool} (h : ¬ b = true) : b = false := by
  cases b with
  | false => rfl
  | true => exact absurd rfl h

theorem splitWsAux_space_cons (c : Char) (hs : isSpaceChar c = true)
    (rest acc : List Char) :
    splitWsAux (c :: rest) acc =
      if acc = [] then splitWsAux rest []
      else acc.reverse :: splitWsAux rest [] := by
  simp [splitWsAux, hs, List.isEmpty_iff]

theorem splitWsAux_nonspace_cons (c : Char) (hs : isSpaceChar c = false)
    (rest acc : List Char) :
    splitWsAux (c :: rest) acc = splitWsAux rest (c :: acc) := by
  simp [splitWsAux, hs]

theorem splitWsAux_punct_cons (c : Char) (hs : isSpaceChar c = false)
    (rest : List Char) :
    splitWsAux (c :: ' ' :: rest) [] = [c] :: splitWsAux rest [] := by
  rw [splitWsAux_nonspace_cons c hs,
    splitWsAux_space_cons ' ' (show isSpaceChar ' ' = true from rfl)]
  simp

theorem splitWsAux_expand_shape : ∀ l acc : List Char,
    (∀ a ∈ acc, isWordChar a = true) →
    ∀ tok ∈ splitWsAux (l.flatMap expandChar) acc,
      tok ≠ [] ∧ (∀ c ∈ tok, isSpaceChar c = false) ∧
      ((∀ c ∈ tok, isWordChar c = true) ∨
        ∃ c, tok = [c] ∧ isWordChar c = false ∧ isSpaceChar c = false) := by
  intro l
  induction l with
  | nil =>
    intro acc hacc tok htok
    rw [List.flatMap_nil] at htok
    by_cases ha : acc = []
    · subst ha
      simp [splitWsAux] at htok
    · have hrw : splitWsAux [] acc = [acc.reverse] := by
        simp [splitWsAux, List.isEmpty_iff, ha]
      rw [hrw, List.mem_singleton] at htok
      subst htok
      exact ⟨by simp [ha],
        fun x hx => not_space_of_word (hacc x (List.mem_reverse.1 hx)),
        Or.inl fun x hx => hacc x (List.mem_reverse.1 hx)⟩
  | cons c t ih =>
    intro acc hacc tok htok
    rw [List.flatMap_cons] at htok
    by_cases hs : isSpaceChar c = true
    · rw [show expandChar c = [c] by simp [expandChar, hs],
        List.singleton_append, splitWsAux_space_cons c hs] at htok
      by_cases ha : acc = []
      · rw [if_pos ha] at htok
        exact ih [] (by simp) tok htok
      · rw [if_neg ha] at htok
        rcases List.mem_cons.1 htok with h1 | h1
        · subst h1
          exact ⟨by simp [ha],
            fun x hx => not_space_of_word (hacc x (List.mem_reverse.1 hx)),
            Or.inl fun x hx => hacc x (List.mem_reverse.1 hx)⟩
        · exact ih [] (by simp) tok h1
    · have hs' : isSpaceChar c = false := bool_eq_false hs
      by_cases hw : isWordChar c = true
      · rw [show expandChar c = [c] by simp [expandChar, hw],
          List.singleton_append, splitWsAux_nonspace_cons c hs'] at htok
        refine ih (c :: acc) ?_ tok htok
        intro a ha'
        rcases List.mem_cons.1 ha' with h1 | h1
        · subst h1
          exact hw
        · exact hacc a h1
      · have hw' : isWordChar c = false := bool_eq_false hw
        rw [show expandChar c = [' ', c, ' '] by simp [expandChar, hw', hs'],
          List.cons_append, List.cons_append, List.singleton_append,
          splitWsAux_space_cons ' ' (show isSpaceChar ' ' = true from rfl),
          splitWsAux_punct_cons c hs'] at htok
        have hgood : ∀ x ∈ ([c] : List Char), isSpaceChar x = false := by
          intro x hx
          rw [List.mem_singleton] at hx
          subst hx
          exact hs'
        by_cases ha : acc = []
        · rw [if_pos ha] at htok
          rcases List.mem_cons.1 htok with h1 | h1
          · subst h1
            exact ⟨by simp, hgood, Or.inr ⟨c, rfl, hw', hs'⟩⟩
          · exact ih [] (by simp) tok h1
        · rw [if_neg ha] at htok
          rcases List.mem_cons.1 htok with h1 | h1
          · subst h1
            exact ⟨by simp [ha],
              fun x hx => not_space_of_word (hacc x (List.mem_reverse.1 hx)),
              Or.inl fun x hx => hacc x (List.mem_reverse.1 hx)⟩
          · rcases List.mem_cons.1 h1 with h2 | h2
            · subst h2
              exact ⟨by simp, hgood, Or.inr ⟨c, rfl, hw', hs'⟩⟩
            · exact ih [] (by simp) tok h2

/-- C10: every token produced by tokenize is non-empty, contains no
whitespace, and is either a run of word characters (letters, digits,
underscore) or a single character that is neither a word character nor
whitespace; word and punctuation characters never mix inside one token. -/
theorem tokenize_token_shape (s : List Char) :
    ∀ tok ∈ tokenize s,
      tok ≠ [] ∧ (∀ c ∈ tok, isSpaceChar c = false) ∧
      ((∀ c ∈ tok, isWordChar c = true) ∨
        ∃ c, tok = [c] ∧ isWordChar c = false ∧ isSpaceChar c = false) := by
  intro tok htok
  rw [tokenize] at htok
  split at htok
  · simp at htok
  · rw [splitWs] at htok
    exact splitWsAux_expand_shape ((trim s).map Char.toLower) [] (by simp) tok htok

/-- C10 witness: the token "a" of the input "a!". -/
theorem tokenize_token_shape_witness :
    (['a'] : List Char) ≠ [] ∧ (∀ c ∈ (['a'] : List Char), isSpaceChar c = false) ∧
    ((∀ c ∈ (['a'] : List Char), isWordChar c = true) ∨
      ∃ c, (['a'] : List Char) = [c] ∧ isWordChar c = false ∧ isSpaceChar c = false) :=
  tokenize_token_shape "a!".toList ['a'] (by decide)

/-- C3 counterexample: on the non-empty all-equal matrix [[0]] the range
falls back to 1 and the cell holding the maximum value is painted
(255, 255, 252) — the colour the mapping yields at t = 0 — and not the
t = 1 anchor colour (125, 211, 252), contrary to the claim that the
maximum is always painted the t = 1 anchor colour. -/
theorem heatmap_max_anchor_counterexample :
    ([[(0 : ℝ)]].flatten ≠ []) ∧
    listMin [[(0 : ℝ)]].flatten = 0 ∧ listMax [[(0 : ℝ)]].flatten = 0 ∧
    rangeOf 0 0 = 1 ∧
    heatmapColor 0 (rangeOf 0 0) 0 = (255, 255, 252) ∧
    heatmapColor 0 (rangeOf 0 0) 0 ≠ (125, 211, 252) := by
  have h1 : rangeOf (0 : ℝ) 0 = 1 := by
    rw [rangeOf, if_pos (by norm_num)]
  have h2 : heatmapColor 0 (rangeOf 0 0) 0 = (255, 255, 252) := by
    rw [h1]
    simp only [heatmapColor]
    norm_num
  refine ⟨by simp, by simp [listMin], by simp [listMax], h1, h2, ?_⟩
  rw [h2]
  simp

/-- C3 (amended): the range of the heatmap scale is never zero (when all
values are equal it is replaced by 1, so no division by zero occurs); the
cell holding the minimum value is always painted the t = 0 anchor colour
(255, 255, 252); when the minimum is strictly below the maximum the cell
holding the maximum is painted the t = 1 anchor colour (125, 211, 252);
when all values are equal the maximum cell is instead painted the t = 0
anchor colour. -/
theorem heatmap_anchor_colors (matrix : List (List ℝ))
    (_hne : matrix.flatten ≠ []) :
    rangeOf (listMin matrix.flatten) (listMax matrix.flatten) ≠ 0 ∧
    heatmapColor (listMin matrix.flatten)
      (rangeOf (listMin matrix.flatten) (listMax matrix.flatten))
      (listMin matrix.flatten) = (255, 255, 252) ∧
    (listMin matrix.flatten < listMax matrix.flatten →
      heatmapColor (listMin matrix.flatten)
        (rangeOf (listMin matrix.flatten) (listMax matrix.flatten))
        (listMax matrix.flatten) = (125, 211, 252)) ∧
    (listMin matrix.flatten = listMax matrix.flatten →
      rangeOf (listMin matrix.flatten) (listMax matrix.flatten) = 1 ∧
      heatmapColor (listMin matrix.flatten)
        (rangeOf (listMin matrix.flatten) (listMax matrix.flatten))
        (listMax matrix.flatten) = (255, 255, 252)) := by
  set mn := listMin matrix.flatten
  set mx := listMax matrix.flatten
  refine ⟨?_, ?_, fun hlt => ?_, fun heq => ?_⟩
  · rw [rangeOf]
    split
    · norm_num
    · rename_i hne'
      exact hne'
  · simp only [heatmapColor]
    rw [sub_self, zero_div]
    norm_num
  · have hne' : mx - mn ≠ 0 := sub_ne_zero.2 (ne_of_gt hlt)
    rw [rangeOf, if_neg hne']
    simp only [heatmapColor]
    rw [div_self hne']
    norm_num
  · have h1 : rangeOf mn mx = 1 := by
      rw [rangeOf, if_pos (by rw [heq, sub_self])]
    refine ⟨h1, ?_⟩
    rw [h1, ← heq]
    simp only [heatmapColor]
    rw [sub_self, zero_div]
    norm_num

/-- C3 witness for the amended theorem at the matrix [[0, 1]]. -/
theorem heatmap_anchor_colors_witness :
    rangeOf (listMin [[(0 : ℝ), 1]].flatten) (listMax [[(0 : ℝ), 1]].flatten) ≠ 0 ∧
    heatmapColor (listMin [[(0 : ℝ), 1]].flatten)
      (rangeOf (listMin [[(0 : ℝ), 1]].flatten) (listMax [[(0 : ℝ), 1]].flatten))
      (listMin [[(0 : ℝ), 1]].flatten) = (255, 255, 252) :=
  have h := heatmap_anchor_colors [[(0 : ℝ), 1]] (by simp)
  ⟨h.1, h.2.1⟩

end EmbeddingFlow
